import Mathlib

/-!
Verification of the velocity request-dispatch core: multi-tier route
resolution (src/router.go), middleware composition (src/middleware.go),
the pooled per-request Context lifecycle (src/context.go), and the
dispatcher glue (src/velocity.go, Server.buildHandler).

The Go code is shallowly embedded: pointer mutation becomes explicit
state passing, Go maps become functions to Option, Go slices become
lists (with a separate heap-based slice model where allocation
freshness itself is the property under scrutiny), and a panicking
accessor returns an Option whose none case models the panic.
-/

namespace Velocity

/-! ### External nwep collaborator, modelled minimally

The transport collaborator (package nwep) is out of scope per the spec;
only the request view and the response writer surface that the dispatch
core touches are modelled.  `Respond` records the (status, body) pair
written; the status constant values are those documented in
src/router.go ("not_found" / body "not found").  -/

structure Request where
  path : String
  method : String
  body : String
deriving DecidableEq

structure ResponseWriter where
  written : Option (String × String)
deriving DecidableEq

/-- Respond on the raw writer: records the (status, body) pair. -/
def ResponseWriter.Respond (w : ResponseWriter) (status body : String) : ResponseWriter :=
  { w with written := some (status, body) }

def StatusNotFound : String := "not_found"

/-- WEB/1 method constants re-exported by src/method.go; the string values
are those documented in src/router.go ("read", "write", "update", "delete"). -/
def MethodRead : String := "read"

def MethodWrite : String := "write"

def MethodUpdate : String := "update"

def MethodDelete : String := "delete"

/-! ### Context (src/context.go)

Go's `map[string]any` store is modelled as `Option (String → Option GoVal)`:
`none` is the nil (never-allocated) map, matching the lazy initialisation
in Context.Set.  The `server` back-reference is an abstract reference id
(`Nat`), since no claim inspects the server through the context.  -/

inductive GoVal where
  | str : String → GoVal
  | strs : List String → GoVal
deriving DecidableEq

structure Context where
  Response : Option ResponseWriter
  Request : Option Request
  server : Option Nat
  store : Option (String → Option GoVal)

/-- Errors are modelled as strings; a Go `error` result is `Option Err`
(`none` is the nil error). -/
def Err : Type := String

/-- src/velocity.go line 41: `type HandlerFunc func(c *Context) error`.
State passing: the handler returns the mutated context and the error. -/
def HandlerFunc : Type := Context → Context × Option Err

/-- src/middleware.go line 29: `type MiddlewareFunc func(next HandlerFunc) HandlerFunc`. -/
def MiddlewareFunc : Type := HandlerFunc → HandlerFunc

/-- Context.Set (src/context.go lines 283-288): lazily allocates the store,
then writes the key. -/
def Context.Set (c : Context) (key : String) (val : GoVal) : Context :=
  match c.store with
  | none => { c with store := some (fun k => if k = key then some val else none) }
  | some m => { c with store := some (fun k => if k = key then some val else m k) }

/-- Context.Get (src/context.go lines 293-299): soft accessor, returns the
value and a presence flag, never raises. -/
def Context.Get (c : Context) (key : String) : Option GoVal × Bool :=
  match c.store with
  | none => (none, false)
  | some m =>
    match m key with
    | some v => (some v, true)
    | none => (none, false)

/-- Context.MustGet (src/context.go lines 304-310): hard accessor; the Go
panic ("velocity: context key not found") is modelled by `none`. -/
def Context.MustGet (c : Context) (key : String) : Option GoVal :=
  match c.Get key with
  | (v, true) => v
  | (_, false) => none

/-- Context.Respond (src/context.go lines 152-154), forwarding to the bound
response writer.  A nil writer would be a Go nil-pointer panic; the dispatch
path always binds the writer first, and the stray case is modelled as an
error result. -/
def Context.Respond (c : Context) (status body : String) : Context × Option Err :=
  match c.Response with
  | some w => ({ c with Response := some (w.Respond status body) }, none)
  | none => (c, some "panic: nil response writer")

/-- Context.NotFound (src/context.go lines 192-194). -/
def Context.NotFound (c : Context) (msg : String) : Context × Option Err :=
  c.Respond StatusNotFound msg

/-! ### Context pool (src/context.go lines 38-57)

sync.Pool is modelled as a list: Get pops the head or falls back to the
pool's New (a zero Context), Put pushes.  -/

def emptyContext : Context := ⟨none, none, none, none⟩

def poolGet (pool : List Context) : Context × List Context :=
  match pool with
  | [] => (emptyContext, [])
  | c :: rest => (c, rest)

/-- acquireContext (src/context.go lines 42-49): takes a context from the
pool and binds every field; the store starts nil. -/
def acquireContext (w : ResponseWriter) (r : Request) (s : Nat)
    (pool : List Context) : Context × List Context :=
  let (c, rest) := poolGet pool
  ({ c with Response := some w, Request := some r, server := some s, store := none }, rest)

/-- releaseContext (src/context.go lines 51-57): clears every field, then
returns the context to the pool. -/
def releaseContext (c : Context) (pool : List Context) : List Context :=
  { c with Response := none, Request := none, server := none, store := none } :: pool

/-! ### Middleware composition (src/middleware.go lines 34-39)

The Go loop runs `i` from `len(mw)-1` down to `0` doing `h = mw[i](h)`;
structurally that is the right fold below: the head of the list ends up
outermost.  -/

def applyMiddleware (h : HandlerFunc) (mw : List MiddlewareFunc) : HandlerFunc :=
  match mw with
  | [] => h
  | d :: rest => d (applyMiddleware h rest)

/-- combineMW (src/router.go lines 8-13) at the value level: the fresh
array filled by the two copy calls holds exactly the elements of `a`
followed by those of `b`.  The allocation behaviour itself is modelled
separately in `SliceM` below. -/
def combineMW (a b : List MiddlewareFunc) : List MiddlewareFunc :=
  a ++ b

/-! ### Router (src/router.go) -/

structure route where
  handler : HandlerFunc
  middleware : List MiddlewareFunc

structure prefixRoute where
  pfx : String
  rt : route

/-- The Router of src/router.go lines 40-44: one shared exact-match table
(a Go map, modelled as a function to Option with replace-on-insert), the
ordered prefix list, and the optional not-found handler. -/
structure Router where
  exact : String → Option route
  prefixRoutes : List prefixRoute
  notFound : Option HandlerFunc

/-- NewRouter (src/router.go lines 54-58). -/
def NewRouter : Router := ⟨fun _ => none, [], none⟩

/-- Go map assignment `m[k] = v`: last write wins. -/
def mapInsert (m : String → Option route) (k : String) (v : route) :
    String → Option route :=
  fun k2 => if k2 = k then some v else m k2

/-- Router.Handle (src/router.go lines 63-65). -/
def Router.Handle (rt : Router) (path : String) (h : HandlerFunc)
    (mw : List MiddlewareFunc) : Router :=
  { rt with exact := mapInsert rt.exact path ⟨h, mw⟩ }

/-- Router.Method (src/router.go lines 70-73): writes the composite key
`method ++ " " ++ path` into the same exact table. -/
def Router.Method (rt : Router) (method path : String) (h : HandlerFunc)
    (mw : List MiddlewareFunc) : Router :=
  { rt with exact := mapInsert rt.exact (method ++ " " ++ path) ⟨h, mw⟩ }

/-- Router.Read (src/router.go lines 77-79). -/
def Router.Read (rt : Router) (path : String) (h : HandlerFunc)
    (mw : List MiddlewareFunc) : Router :=
  rt.Method MethodRead path h mw

/-- Router.Write (src/router.go lines 83-85). -/
def Router.Write (rt : Router) (path : String) (h : HandlerFunc)
    (mw : List MiddlewareFunc) : Router :=
  rt.Method MethodWrite path h mw

/-- Router.Update (src/router.go lines 89-91). -/
def Router.Update (rt : Router) (path : String) (h : HandlerFunc)
    (mw : List MiddlewareFunc) : Router :=
  rt.Method MethodUpdate path h mw

/-- Router.Delete (src/router.go lines 95-97). -/
def Router.Delete (rt : Router) (path : String) (h : HandlerFunc)
    (mw : List MiddlewareFunc) : Router :=
  rt.Method MethodDelete path h mw

/-- Router.HandlePrefix (src/router.go lines 105-110): appends, never
replaces. -/
def Router.HandlePrefix (rt : Router) (pre : String) (h : HandlerFunc)
    (mw : List MiddlewareFunc) : Router :=
  { rt with prefixRoutes := rt.prefixRoutes ++ [⟨pre, ⟨h, mw⟩⟩] }

/-- Router.SetNotFound (src/router.go lines 116-118). -/
def Router.SetNotFound (rt : Router) (h : HandlerFunc) : Router :=
  { rt with notFound := some h }

/-- strings.HasPrefix, at the character-sequence level. -/
def hasPrefix (s pre : String) : Bool :=
  pre.data.isPrefixOf s.data

/-- The prefix-scan loop of Router.Find (src/router.go lines 151-158):
a candidate replaces the current best only on strictly greater length. -/
def bestPrefixLoop (path : String) (prs : List prefixRoute)
    (best : Option route) (bestLen : Nat) : Option route × Nat :=
  match prs with
  | [] => (best, bestLen)
  | pr :: rest =>
    if hasPrefix path pr.pfx ∧ bestLen < pr.pfx.length then
      bestPrefixLoop path rest (some pr.rt) pr.pfx.length
    else
      bestPrefixLoop path rest best bestLen

/-- The route selected by the prefix tier, if any. -/
def bestPrefix (prs : List prefixRoute) (path : String) : Option route :=
  (bestPrefixLoop path prs none 0).1

/-- Router.Find (src/router.go lines 141-167): composite-key exact match,
then path-only exact match, then the prefix scan, then the not-found
handler; the selected route's handler is composed with
`combineMW globalMW route.middleware`, the not-found handler with the
global middleware only. -/
def Router.Find (rt : Router) (path method : String)
    (globalMW : List MiddlewareFunc) : Option HandlerFunc :=
  match rt.exact (method ++ " " ++ path) with
  | some r => some (applyMiddleware r.handler (combineMW globalMW r.middleware))
  | none =>
    match rt.exact path with
    | some r => some (applyMiddleware r.handler (combineMW globalMW r.middleware))
    | none =>
      match bestPrefix rt.prefixRoutes path with
      | some r => some (applyMiddleware r.handler (combineMW globalMW r.middleware))
      | none =>
        match rt.notFound with
        | some h => some (applyMiddleware h globalMW)
        | none => none

/-! ### Group (src/router.go lines 182-237)

A Go Group holds a pointer to the shared Router; in the value embedding
the router is passed explicitly at each registration, and the Group value
keeps only the accumulated path and decorator sequence. -/

structure Group where
  pfx : String
  middleware : List MiddlewareFunc

/-- Router.Group (src/router.go lines 127-133). -/
def Router.Group (pre : String) (mw : List MiddlewareFunc) : Group :=
  ⟨pre, mw⟩

/-- Group.Handle (src/router.go lines 191-193). -/
def Group.Handle (g : Group) (rt : Router) (path : String) (h : HandlerFunc)
    (mw : List MiddlewareFunc) : Router :=
  rt.Handle (g.pfx ++ path) h (combineMW g.middleware mw)

/-- Group.Method (src/router.go lines 197-199). -/
def Group.Method (g : Group) (rt : Router) (method path : String)
    (h : HandlerFunc) (mw : List MiddlewareFunc) : Router :=
  rt.Method method (g.pfx ++ path) h (combineMW g.middleware mw)

/-- Group.Read (src/router.go lines 202-204). -/
def Group.Read (g : Group) (rt : Router) (path : String) (h : HandlerFunc)
    (mw : List MiddlewareFunc) : Router :=
  g.Method rt MethodRead path h mw

/-- Group.Write (src/router.go lines 207-209). -/
def Group.Write (g : Group) (rt : Router) (path : String) (h : HandlerFunc)
    (mw : List MiddlewareFunc) : Router :=
  g.Method rt MethodWrite path h mw

/-- Group.Update (src/router.go lines 212-214). -/
def Group.Update (g : Group) (rt : Router) (path : String) (h : HandlerFunc)
    (mw : List MiddlewareFunc) : Router :=
  g.Method rt MethodUpdate path h mw

/-- Group.Delete (src/router.go lines 217-219). -/
def Group.Delete (g : Group) (rt : Router) (path : String) (h : HandlerFunc)
    (mw : List MiddlewareFunc) : Router :=
  g.Method rt MethodDelete path h mw

/-- Group.HandlePrefix (src/router.go lines 224-226). -/
def Group.HandlePrefix (g : Group) (rt : Router) (pre : String)
    (h : HandlerFunc) (mw : List MiddlewareFunc) : Router :=
  rt.HandlePrefix (g.pfx ++ pre) h (combineMW g.middleware mw)

/-- Group.Group (src/router.go lines 231-237): sub-group with concatenated
path and combined decorators. -/
def Group.Group (g : Group) (pre : String) (mw : List MiddlewareFunc) : Group :=
  ⟨g.pfx ++ pre, combineMW g.middleware mw⟩

/-! ### Dispatcher (src/velocity.go lines 279-297, Server.buildHandler) -/

structure Server where
  router : Router
  mw : List MiddlewareFunc
  ref : Nat

/-- The outcome of dispatching one inbound request: the final state of the
response writer, the handler's error (logged by the Go code), and the pool
after the deferred releaseContext. -/
structure DispatchResult where
  writer : Option ResponseWriter
  handlerErr : Option Err
  pool : List Context

/-- Server.buildHandler (src/velocity.go lines 279-297): acquire a pooled
Context, resolve via Router.Find, on a nil handler write the default
not-found response `("not_found", "not found")` directly, otherwise run
the resolved handler; release the Context unconditionally. -/
def serveRequest (s : Server) (w : ResponseWriter) (r : Request)
    (pool : List Context) : DispatchResult :=
  let (c, pool1) := acquireContext w r s.ref pool
  match s.router.Find r.path r.method s.mw with
  | none =>
    let (c1, _) := c.NotFound "not found"
    ⟨c1.Response, none, releaseContext c1 pool1⟩
  | some h =>
    let (c1, e) := h c
    ⟨c1.Response, e, releaseContext c1 pool1⟩

/-! ### Trace instrumentation for the middleware-order claims

The execution order of a decorator chain is observed through the source's
own store operations: each step appends its name to the list stored under
the "trace" key, exactly as a Go test would append to a captured slice. -/

def traceLog (c : Context) : List String :=
  match c.Get "trace" with
  | (some (GoVal.strs l), _) => l
  | _ => []

def logEvent (e : String) (c : Context) : Context :=
  c.Set "trace" (GoVal.strs (traceLog c ++ [e]))

/-- A pass-through decorator that invokes its inner handler exactly once,
logging before and after. -/
def traceMW (nm : String) : MiddlewareFunc := fun next c =>
  let r := next (logEvent (nm ++ "-before") c)
  (logEvent (nm ++ "-after") r.1, r.2)

/-- A short-circuiting decorator that never invokes its inner handler. -/
def shortCircuitMW (nm : String) : MiddlewareFunc := fun _ c =>
  (logEvent nm c, none)

/-- A terminal handler that logs its name. -/
def traceHandler (nm : String) : HandlerFunc := fun c =>
  (logEvent nm c, none)

/-- A fresh bound context with an empty store, as the dispatcher would
hand to the chain. -/
def freshContext : Context :=
  (acquireContext ⟨none⟩ ⟨"/", "read", ""⟩ 0 []).1

/-- A trivial handler used to populate concrete routing tables. -/
def idHandler : HandlerFunc := fun c => (c, none)

/-- A concrete two-entry prefix table ("/a" then "/ab") used to witness
the prefix-tier selection theorem. -/
def twoPrefixes : List prefixRoute :=
  [⟨"/a", ⟨idHandler, []⟩⟩, ⟨"/ab", ⟨idHandler, []⟩⟩]

/-- The route selected by Router.Find before middleware composition,
written out tier by tier as the spec describes resolution (composite-key
exact, path-only exact, prefix scan, not-found): `Sum.inl` carries a
selected route, `Sum.inr` the not-found handler.  Router.Find is compared
against this selection composed with the middleware. -/
def routeSelection (rt : Router) (path method : String) :
    Option (route ⊕ HandlerFunc) :=
  match rt.exact (method ++ " " ++ path) with
  | some r => some (Sum.inl r)
  | none =>
    match rt.exact path with
    | some r => some (Sum.inl r)
    | none =>
      match bestPrefix rt.prefixRoutes path with
      | some r => some (Sum.inl r)
      | none =>
        match rt.notFound with
        | some h => some (Sum.inr h)
        | none => none

end Velocity

namespace SliceM

/-! ### Go slices with explicit backing storage

combineMW's contract is about allocation: the combined slice must live in
a fresh backing array so later mutation of either input cannot alter it.
That is invisible at the value level, so Go slices are modelled here with
an explicit heap of backing arrays: a slice is (array id, offset, length,
capacity), `make` allocates a fresh zero-filled array at a fresh id, and
`copy` is a value-level memmove into the destination's array. -/

structure Heap (α : Type) where
  arrays : List (List α)

structure Slice where
  arr : Nat
  off : Nat
  len : Nat
  cap : Nat

/-- The element sequence a slice denotes in a heap. -/
def read {α : Type} (h : Heap α) (s : Slice) : List α :=
  ((h.arrays.getD s.arr []).drop s.off).take s.len

/-- A slice header that stays within its backing array. -/
def wf {α : Type} (h : Heap α) (s : Slice) : Prop :=
  s.arr < h.arrays.length ∧ s.off + s.len ≤ (h.arrays.getD s.arr []).length

/-- Go `make([]T, n)` with zero value `d`: fresh array, fresh id. -/
def make {α : Type} (h : Heap α) (d : α) (n : Nat) : Heap α × Slice :=
  (⟨h.arrays ++ [List.replicate n d]⟩, ⟨h.arrays.length, 0, n, n⟩)

/-- Go `copy(dst, src)`: overwrites `min dst.len src.len` elements of dst's
backing array starting at dst's offset with the elements of src. -/
def copySlice {α : Type} (h : Heap α) (dst src : Slice) : Heap α :=
  let n := min dst.len src.len
  let arr := h.arrays.getD dst.arr []
  ⟨h.arrays.set dst.arr
    (arr.take dst.off ++ (read h src).take n ++ arr.drop (dst.off + n))⟩

/-- Reslicing `s[k:]`. -/
def sliceFrom (s : Slice) (k : Nat) : Slice :=
  ⟨s.arr, s.off + k, s.len - k, s.cap - k⟩

/-- combineMW (src/router.go lines 8-13) at the slice-heap level:
`combined := make(..., len(a)+len(b)); copy(combined, a);
copy(combined[len(a):], b); return combined`. -/
def combineMW {α : Type} (h : Heap α) (d : α) (a b : Slice) : Heap α × Slice :=
  let p := make h d (a.len + b.len)
  let h2 := copySlice p.1 p.2 a
  let h3 := copySlice h2 (sliceFrom p.2 a.len) b
  (h3, p.2)

/-- Assignment `s[i] = v`: element write through a slice. -/
def writeElem {α : Type} (h : Heap α) (s : Slice) (i : Nat) (v : α) : Heap α :=
  ⟨h.arrays.set s.arr ((h.arrays.getD s.arr []).set (s.off + i) v)⟩

/-- Go `append(s, v)`: writes in place past the length when capacity allows,
otherwise relocates to a fresh backing array. -/
def appendElem {α : Type} (h : Heap α) (s : Slice) (v : α) : Heap α × Slice :=
  if s.len < s.cap then
    (writeElem h s s.len v, ⟨s.arr, s.off, s.len + 1, s.cap⟩)
  else
    (⟨h.arrays ++ [read h s ++ [v]]⟩, ⟨h.arrays.length, 0, s.len + 1, s.len + 1⟩)

end SliceM

namespace Velocity

/-- A concrete middleware heap with two backing arrays, and slices over
each, used to witness the combineMW allocation theorem. -/
def mwHeap : SliceM.Heap MiddlewareFunc :=
  ⟨[[traceMW "m1", traceMW "m2"], [traceMW "m3"]]⟩

def mwA : SliceM.Slice := ⟨0, 0, 2, 2⟩

def mwB : SliceM.Slice := ⟨1, 0, 1, 1⟩

/-! ## Theorems -/

/-- C3. `applyMiddleware` builds `D0 (D1 (… (Dn-1 H) …))` — the head of
the decorator list is outermost, the last element innermost (stated as the
right fold of function application over the sequence, plus the explicit
three-element nesting).  Consequently, for a chain `[A, B, C]` around `H`
of pass-through decorators the observed execution order is
A-before, B-before, C-before, H, C-after, B-after, A-after; and when the
outermost decorator never invokes its inner handler, neither B nor C nor H
executes (only the short-circuit event is observed). -/
theorem applyMiddleware_nests_head_outermost :
    (∀ (h : HandlerFunc) (mw : List MiddlewareFunc),
      applyMiddleware h mw = mw.foldr (fun d k => d k) h) ∧
    (∀ (h : HandlerFunc) (d0 d1 d2 : MiddlewareFunc),
      applyMiddleware h [d0, d1, d2] = d0 (d1 (d2 h))) ∧
    traceLog ((applyMiddleware (traceHandler "H")
        [traceMW "A", traceMW "B", traceMW "C"]) freshContext).1 =
      ["A-before", "B-before", "C-before", "H", "C-after", "B-after", "A-after"] ∧
    traceLog ((applyMiddleware (traceHandler "H")
        [shortCircuitMW "A-short", traceMW "B", traceMW "C"]) freshContext).1 =
      ["A-short"] := by
  refine ⟨fun h mw => ?_, fun h d0 d1 d2 => rfl, rfl, rfl⟩
  induction mw with
  | nil => rfl
  | cons d rest ih => simp [applyMiddleware, ih]

/-- C4. releaseContext clears every field (request handle, response
handle, owning-server reference, store) before the context re-enters the
pool, and reacquisition — after any sequence of store mutations on the
previously bound context — yields an instance whose store is empty (nil)
and whose bindings are exactly the new request's, with no residue. -/
theorem context_release_reacquire_clean (pool : List Context)
    (w w2 : ResponseWriter) (r r2 : Request) (s s2 : Nat)
    (kvs : List (String × GoVal)) :
    (∀ (c : Context) (p : List Context),
      releaseContext c p = emptyContext :: p) ∧
    (let a := acquireContext w r s pool
     let mutated := kvs.foldl (fun acc kv => acc.Set kv.1 kv.2) a.1
     let pool2 := releaseContext mutated a.2
     (acquireContext w2 r2 s2 pool2).1 =
        ⟨some w2, some r2, some s2, none⟩) := by
  constructor
  · intro c p
    rfl
  · rfl

/-- C9. The soft accessor Get returns the stored value with indicator
`true` exactly when the key is present (in particular, right after a Set of
that key it returns the value just written, and a Set of a different key
does not disturb it), returns `(none, false)` otherwise, and never raises
(it is a total function); the hard accessor MustGet yields the stored value
exactly when the key is present and panics (modelled as `none`) exactly
when Get reports absence. -/
theorem get_soft_mustGet_hard (c : Context) (k : String) :
    (∀ v, c.Get k = (some v, true) ↔ c.MustGet k = some v) ∧
    (c.Get k = (none, false) ↔ c.MustGet k = none) ∧
    (c.Get k = (none, false) ∨ ∃ v, c.Get k = (some v, true)) ∧
    (∀ v, (c.Set k v).Get k = (some v, true)) ∧
    (∀ k2 v, k2 ≠ k → (c.Set k2 v).Get k = c.Get k) := by
  have hcase : c.Get k = (none, false) ∨ ∃ v, c.Get k = (some v, true) := by
    cases hs : c.store with
    | none => exact Or.inl (by simp [Context.Get, hs])
    | some m =>
      cases hm : m k with
      | none => exact Or.inl (by simp [Context.Get, hs, hm])
      | some v => exact Or.inr ⟨v, by simp [Context.Get, hs, hm]⟩
  refine ⟨?_, ?_, hcase, ?_, ?_⟩
  · intro v
    unfold Context.MustGet
    rcases hcase with h | ⟨v2, h⟩ <;> rw [h] <;> simp
  · unfold Context.MustGet
    rcases hcase with h | ⟨v2, h⟩ <;> rw [h] <;> simp
  · intro v
    cases hs : c.store with
    | none => simp [Context.Set, Context.Get, hs]
    | some m => simp [Context.Set, Context.Get, hs]
  · intro k2 v hne
    cases hs : c.store with
    | none => simp [Context.Set, Context.Get, hs, Ne.symm hne]
    | some m => simp [Context.Set, Context.Get, hs, Ne.symm hne]

/-- Witness for the hypothesis-bearing conjuncts of the Get/MustGet
theorem, at a concrete context and keys. -/
theorem get_soft_mustGet_hard_witness :
    ((freshContext.Set "other" (GoVal.str "x")).Get "k" = freshContext.Get "k") ∧
    (freshContext.Get "k" = (none, false) ↔ freshContext.MustGet "k" = none) := by
  refine ⟨?_, (get_soft_mustGet_hard freshContext "k").2.1⟩
  exact (get_soft_mustGet_hard freshContext "k").2.2.2.2 "other" (GoVal.str "x")
    (by decide)

/-- Full characterization of the prefix-scan loop of Router.Find, for any
starting accumulator: either no entry strictly improves on the starting
length and the accumulator is returned unchanged, or the loop returns the
first entry attaining the greatest matching length above the start. -/
theorem bestPrefixLoop_char (path : String) (prs : List prefixRoute) :
    ∀ (best : Option route) (bl : Nat),
      ((∀ pr ∈ prs, hasPrefix path pr.pfx = true → pr.pfx.length ≤ bl) ∧
        bestPrefixLoop path prs best bl = (best, bl)) ∨
      (∃ i, ∃ hi : i < prs.length,
        hasPrefix path prs[i].pfx = true ∧
        bl < prs[i].pfx.length ∧
        bestPrefixLoop path prs best bl = (some prs[i].rt, prs[i].pfx.length) ∧
        (∀ j, ∀ hj : j < prs.length, hasPrefix path prs[j].pfx = true →
          prs[j].pfx.length ≤ prs[i].pfx.length) ∧
        (∀ j, ∀ hj : j < prs.length, j < i → hasPrefix path prs[j].pfx = true →
          prs[j].pfx.length < prs[i].pfx.length)) := by
  induction prs with
  | nil =>
    intro best bl
    exact Or.inl ⟨by simp, rfl⟩
  | cons pr rest ih =>
    intro best bl
    by_cases hc : hasPrefix path pr.pfx = true ∧ bl < pr.pfx.length
    · have hloop : bestPrefixLoop path (pr :: rest) best bl =
          bestPrefixLoop path rest (some pr.rt) pr.pfx.length := by
        simp only [bestPrefixLoop]
        rw [if_pos hc]
      rcases ih (some pr.rt) pr.pfx.length with ⟨hbound, heq⟩ |
        ⟨i, hi, hm, hlt, heq, hmax, hfirst⟩
      · refine Or.inr ⟨0, by simp, hc.1, hc.2, by rw [hloop, heq]; simp, ?_, ?_⟩
        · intro j hj hmj
          match j, hj with
          | 0, hj => simp
          | j + 1, hj =>
            have hj2 : j < rest.length := by
              simp only [List.length_cons] at hj
              omega
            simp only [List.getElem_cons_succ] at hmj
            simp only [List.getElem_cons_zero, List.getElem_cons_succ]
            exact hbound _ (List.getElem_mem hj2) hmj
        · intro j hj hj0 hmj
          omega
      · refine Or.inr ⟨i + 1, by simpa using Nat.succ_lt_succ hi, ?_, ?_, ?_, ?_, ?_⟩
        · simpa using hm
        · simp only [List.getElem_cons_succ]
          omega
        · rw [hloop]
          simpa using heq
        · intro j hj hmj
          match j, hj with
          | 0, hj =>
            simp only [List.getElem_cons_zero] at hmj
            simp only [List.getElem_cons_zero, List.getElem_cons_succ]
            omega
          | j + 1, hj =>
            have hj2 : j < rest.length := by
              simp only [List.length_cons] at hj
              omega
            simp only [List.getElem_cons_succ] at hmj ⊢
            exact hmax j hj2 hmj
        · intro j hj hjlt hmj
          match j, hj with
          | 0, hj =>
            simp only [List.getElem_cons_zero] at hmj
            simp only [List.getElem_cons_zero, List.getElem_cons_succ]
            omega
          | j + 1, hj =>
            have hj2 : j < rest.length := by
              simp only [List.length_cons] at hj
              omega
            simp only [List.getElem_cons_succ] at hmj ⊢
            exact hfirst j hj2 (by omega) hmj
    · have hloop : bestPrefixLoop path (pr :: rest) best bl =
          bestPrefixLoop path rest best bl := by
        simp only [bestPrefixLoop]
        rw [if_neg hc]
      have hhead : hasPrefix path pr.pfx = true → pr.pfx.length ≤ bl := by
        intro hm2
        by_contra hgt
        exact hc ⟨hm2, by omega⟩
      rcases ih best bl with ⟨hbound, heq⟩ | ⟨i, hi, hm, hlt, heq, hmax, hfirst⟩
      · refine Or.inl ⟨?_, by rw [hloop, heq]⟩
        intro pr2 hmem hm2
        rcases List.mem_cons.mp hmem with rfl | hmem2
        · exact hhead hm2
        · exact hbound pr2 hmem2 hm2
      · refine Or.inr ⟨i + 1, by simpa using Nat.succ_lt_succ hi, ?_, ?_, ?_, ?_, ?_⟩
        · simpa using hm
        · simpa using hlt
        · rw [hloop]
          simpa using heq
        · intro j hj hmj
          match j, hj with
          | 0, hj =>
            simp only [List.getElem_cons_zero] at hmj
            simp only [List.getElem_cons_zero, List.getElem_cons_succ]
            have := hhead hmj
            omega
          | j + 1, hj =>
            have hj2 : j < rest.length := by
              simp only [List.length_cons] at hj
              omega
            simp only [List.getElem_cons_succ] at hmj ⊢
            exact hmax j hj2 hmj
        · intro j hj hjlt hmj
          match j, hj with
          | 0, hj =>
            simp only [List.getElem_cons_zero] at hmj
            simp only [List.getElem_cons_zero, List.getElem_cons_succ]
            have := hhead hmj
            omega
          | j + 1, hj =>
            have hj2 : j < rest.length := by
              simp only [List.length_cons] at hj
              omega
            simp only [List.getElem_cons_succ] at hmj ⊢
            exact hfirst j hj2 (by omega) hmj

/-- The prefix tier yields no candidate iff every registered entry whose
string is a literal prefix of the path has the empty registered prefix
(the scan starts its running best length at 0 and only accepts strict
improvements, so empty prefixes are never selected). -/
theorem bestPrefix_eq_none_iff (prs : List prefixRoute) (path : String) :
    bestPrefix prs path = none ↔
      ∀ pr ∈ prs, hasPrefix path pr.pfx = true → pr.pfx.length = 0 := by
  constructor
  · intro hb pr hmem hm
    rcases bestPrefixLoop_char path prs none 0 with ⟨hbound, _⟩ |
      ⟨i, hi, _, hlt, heq, _, _⟩
    · exact Nat.le_zero.mp (hbound pr hmem hm)
    · unfold bestPrefix at hb
      rw [heq] at hb
      simp at hb
  · intro hall
    rcases bestPrefixLoop_char path prs none 0 with ⟨_, heq⟩ |
      ⟨i, hi, hm, hlt, heq, _, _⟩
    · unfold bestPrefix
      rw [heq]
    · exact absurd (hall _ (List.getElem_mem hi) hm) (by omega)

/-- A composite key is strictly longer than the bare path, hence never
equal to it: `method ++ " " ++ path ≠ path2` whenever `path2` is at most
as long as `path`.  Used to show a fresh composite lookup misses a table
holding only the bare key. -/
theorem composite_key_ne (m p : String) : m ++ " " ++ p ≠ p := by
  intro h
  have hl := congrArg String.length h
  simp [String.length_append] at hl
  exact absurd hl.2 (by decide)

/-- C10. Method-specific and path-only exact routes live in one shared
table: `Method m p h` and `Handle (m ++ " " ++ p) h2` write the identical
key, so the later registration replaces the earlier in either order; and
Find's composite-key step and path-only step read this same map — after
Handle overwrites the Method registration, `Find p m` returns the
Handle-registered route through the composite-key step, and a path-only
lookup of the space-containing path `m ++ " " ++ p` returns the
Method-registered route through the path-only step. -/
theorem exact_table_shared (rt : Router) (m p m2 : String)
    (h h2 : HandlerFunc) (mw mw2 g : List MiddlewareFunc) :
    (((rt.Method m p h mw).Handle (m ++ " " ++ p) h2 mw2).exact
        (m ++ " " ++ p) = some ⟨h2, mw2⟩) ∧
    (((rt.Handle (m ++ " " ++ p) h2 mw2).Method m p h mw).exact
        (m ++ " " ++ p) = some ⟨h, mw⟩) ∧
    (((rt.Method m p h mw).Handle (m ++ " " ++ p) h2 mw2).Find p m g =
        some (applyMiddleware h2 (combineMW g mw2))) ∧
    ((NewRouter.Method m p h mw).Find (m ++ " " ++ p) m2 g =
        some (applyMiddleware h (combineMW g mw))) := by
  refine ⟨?_, ?_, ?_, ?_⟩
  · simp [Router.Method, Router.Handle, mapInsert]
  · simp [Router.Method, Router.Handle, mapInsert]
  · simp [Router.Find, Router.Method, Router.Handle, mapInsert]
  · have hne : m2 ++ " " ++ (m ++ " " ++ p) ≠ m ++ " " ++ p :=
      composite_key_ne m2 (m ++ " " ++ p)
    simp [Router.Find, Router.Method, NewRouter, mapInsert, hne]

/-- C2, counterexample. The claim fails on an empty registered
prefix: `""` is a literal prefix of `"/x"`, so among the matching entries
of the single-entry table the claim requires the prefix tier to select
that (unique, hence greatest-length) entry; but the scan accepts a
candidate only on strictly greater length than the running best, which
starts at 0, so the empty-prefixed entry is never selected and the tier
yields no candidate. -/
theorem prefix_tier_empty_counterexample :
    hasPrefix "/x" "" = true ∧
    bestPrefix [⟨"", ⟨idHandler, []⟩⟩] "/x" = none :=
  ⟨rfl, rfl⟩

/-- C2 (amended). Among the matching entries with a *nonempty*
registered prefix, the prefix tier selects the first entry of strictly
greatest prefix length (earlier ties win, since a candidate replaces the
best only on strictly greater length); when every matching entry has the
empty prefix the tier yields no candidate.  Consequently with "/a" and
"/ab" registered in either order, Find("/ab/x", m) resolves to the
handler registered under "/ab". -/
theorem prefix_tier_longest_first_nonempty (prs : List prefixRoute)
    (path m : String) (ha hb : HandlerFunc) :
    ((∃ pr ∈ prs, hasPrefix path pr.pfx = true ∧ 0 < pr.pfx.length) →
      ∃ i, ∃ hi : i < prs.length,
        hasPrefix path prs[i].pfx = true ∧ 0 < prs[i].pfx.length ∧
        bestPrefix prs path = some prs[i].rt ∧
        (∀ j, ∀ hj : j < prs.length, hasPrefix path prs[j].pfx = true →
          prs[j].pfx.length ≤ prs[i].pfx.length) ∧
        (∀ j, ∀ hj : j < prs.length, j < i → hasPrefix path prs[j].pfx = true →
          prs[j].pfx.length < prs[i].pfx.length)) ∧
    ((∀ pr ∈ prs, hasPrefix path pr.pfx = true → pr.pfx.length = 0) →
      bestPrefix prs path = none) ∧
    (((NewRouter.HandlePrefix "/a" ha []).HandlePrefix "/ab" hb []).Find
        "/ab/x" m [] = some hb) ∧
    (((NewRouter.HandlePrefix "/ab" hb []).HandlePrefix "/a" ha []).Find
        "/ab/x" m [] = some hb) := by
  refine ⟨?_, (bestPrefix_eq_none_iff prs path).mpr, rfl, rfl⟩
  intro hex
  rcases bestPrefixLoop_char path prs none 0 with ⟨hbound, _⟩ |
    ⟨i, hi, hm, hlt, heq, hmax, hfirst⟩
  · rcases hex with ⟨pr, hmem, hm, hpos⟩
    exact absurd (hbound pr hmem hm) (by omega)
  · exact ⟨i, hi, hm, hlt, by unfold bestPrefix; rw [heq], hmax, hfirst⟩

/-- Witness for the prefix-tier theorem: the "/a"/"/ab" table at path
"/ab/x" (first conjunct, existential hypothesis discharged at the "/a"
entry) and an all-empty table (second conjunct). -/
theorem prefix_tier_longest_first_nonempty_witness :
    (∃ i, ∃ hi : i < twoPrefixes.length,
      hasPrefix "/ab/x" twoPrefixes[i].pfx = true ∧
      0 < twoPrefixes[i].pfx.length ∧
      bestPrefix twoPrefixes "/ab/x" = some twoPrefixes[i].rt ∧
      (∀ j, ∀ hj : j < twoPrefixes.length,
        hasPrefix "/ab/x" twoPrefixes[j].pfx = true →
        twoPrefixes[j].pfx.length ≤ twoPrefixes[i].pfx.length) ∧
      (∀ j, ∀ hj : j < twoPrefixes.length, j < i →
        hasPrefix "/ab/x" twoPrefixes[j].pfx = true →
        twoPrefixes[j].pfx.length < twoPrefixes[i].pfx.length)) ∧
    bestPrefix [⟨"", ⟨idHandler, []⟩⟩] "/q" = none :=
  ⟨(prefix_tier_longest_first_nonempty twoPrefixes "/ab/x" "read"
      idHandler idHandler).1
    ⟨⟨"/a", ⟨idHandler, []⟩⟩, List.mem_cons_self _ _, rfl, by decide⟩,
   (prefix_tier_longest_first_nonempty [⟨"", ⟨idHandler, []⟩⟩] "/q" "read"
      idHandler idHandler).2.1 (by decide)⟩

/-- C1, counterexample. With only `HandlePrefix("", h3)` and a
not-found handler registered, `""` is a literal prefix of `"/x"`, so
under the claimed order — stop at the first matching tier, the prefix
tier before the not-found tier — Find must resolve to h3; the code skips
the empty-prefixed entry (its length does not strictly exceed the
starting best length 0) and falls through to the not-found handler. -/
theorem find_skips_empty_prefix_counterexample :
    hasPrefix "/x" "" = true ∧
    ((NewRouter.HandlePrefix "" (traceHandler "h3") []).SetNotFound
        (traceHandler "hnf")).Find "/x" "read" [] =
      some (traceHandler "hnf") ∧
    ((NewRouter.HandlePrefix "" (traceHandler "h3") []).SetNotFound
        (traceHandler "hnf")).Find "/x" "read" [] ≠
      some (traceHandler "h3") := by
  refine ⟨rfl, rfl, fun hcontra => ?_⟩
  have hres : ((NewRouter.HandlePrefix "" (traceHandler "h3") []).SetNotFound
      (traceHandler "hnf")).Find "/x" "read" [] =
    some (traceHandler "hnf") := rfl
  rw [hres] at hcontra
  have h2 := congrArg (fun f => traceLog ((Option.getD f idHandler) freshContext).1)
    hcontra
  exact absurd h2 (by decide)

/-- C1 (amended). Find checks, in order and stopping at the first
match: the composite-key exact entry, the path-only exact entry, the
prefix tier (which yields a candidate exactly unless every matching
registered entry has an empty prefix), then the not-found handler, and
otherwise resolves to absent; in particular, with Method("write",
"/users", hA), Handle("/users", hB) and HandlePrefix("/", hC)
registered, Find("/users","write") resolves to hA, Find("/users","read")
to hB, and Find("/other","read") to hC. -/
theorem find_resolution_order_nonempty (rt : Router) (path method : String)
    (g : List MiddlewareFunc) (r : route) (hnf hA hB hC : HandlerFunc) :
    (rt.exact (method ++ " " ++ path) = some r →
      rt.Find path method g =
        some (applyMiddleware r.handler (combineMW g r.middleware))) ∧
    (rt.exact (method ++ " " ++ path) = none → rt.exact path = some r →
      rt.Find path method g =
        some (applyMiddleware r.handler (combineMW g r.middleware))) ∧
    (rt.exact (method ++ " " ++ path) = none → rt.exact path = none →
      bestPrefix rt.prefixRoutes path = some r →
      rt.Find path method g =
        some (applyMiddleware r.handler (combineMW g r.middleware))) ∧
    (rt.exact (method ++ " " ++ path) = none → rt.exact path = none →
      (∀ pr ∈ rt.prefixRoutes, hasPrefix path pr.pfx = true →
        pr.pfx.length = 0) →
      rt.notFound = some hnf →
      rt.Find path method g = some (applyMiddleware hnf g)) ∧
    (rt.exact (method ++ " " ++ path) = none → rt.exact path = none →
      (∀ pr ∈ rt.prefixRoutes, hasPrefix path pr.pfx = true →
        pr.pfx.length = 0) →
      rt.notFound = none →
      rt.Find path method g = none) ∧
    ((((NewRouter.Method "write" "/users" hA []).Handle "/users" hB
        []).HandlePrefix "/" hC []).Find "/users" "write" [] = some hA) ∧
    ((((NewRouter.Method "write" "/users" hA []).Handle "/users" hB
        []).HandlePrefix "/" hC []).Find "/users" "read" [] = some hB) ∧
    ((((NewRouter.Method "write" "/users" hA []).Handle "/users" hB
        []).HandlePrefix "/" hC []).Find "/other" "read" [] = some hC) := by
  refine ⟨?_, ?_, ?_, ?_, ?_, rfl, rfl, rfl⟩
  · intro h1
    unfold Router.Find
    rw [h1]
  · intro h1 h2
    unfold Router.Find
    rw [h1, h2]
  · intro h1 h2 h3
    unfold Router.Find
    rw [h1, h2, h3]
  · intro h1 h2 h3 h4
    unfold Router.Find
    rw [h1, h2, (bestPrefix_eq_none_iff rt.prefixRoutes path).mpr h3, h4]
  · intro h1 h2 h3 h4
    unfold Router.Find
    rw [h1, h2, (bestPrefix_eq_none_iff rt.prefixRoutes path).mpr h3, h4]

/-- Witness for the resolution-order theorem: the composite-key tier at a
one-route table, and the absent case at the empty router. -/
theorem find_resolution_order_nonempty_witness :
    (NewRouter.Method "read" "/a" idHandler []).Find "/a" "read" [] =
      some idHandler ∧
    NewRouter.Find "/missing" "read" [] = none :=
  ⟨(find_resolution_order_nonempty (NewRouter.Method "read" "/a" idHandler [])
      "/a" "read" [] ⟨idHandler, []⟩ idHandler idHandler idHandler
      idHandler).1 rfl,
   (find_resolution_order_nonempty NewRouter "/missing" "read" []
      ⟨idHandler, []⟩ idHandler idHandler idHandler
      idHandler).2.2.2.2.1 rfl rfl (by simp [NewRouter]) rfl⟩

/-- C6. Router.Find equals the tier-by-tier route selection followed
by middleware composition: a route selected by any of the three matching
tiers is returned as its handler composed with the global decorators
followed by that route's own decorators (`combineMW g mw = g ++ mw`,
global first), recomposed from the current `g` on every call; the
not-found handler is composed with the global decorators only, never any
route-level ones. -/
theorem find_composes_global_then_route (rt : Router) (path method : String)
    (g : List MiddlewareFunc) :
    rt.Find path method g = (routeSelection rt path method).map
      (fun sel => match sel with
        | Sum.inl r => applyMiddleware r.handler (combineMW g r.middleware)
        | Sum.inr h => applyMiddleware h g) ∧
    (∀ a b : List MiddlewareFunc, combineMW a b = a ++ b) := by
  refine ⟨?_, fun a b => rfl⟩
  cases hx : rt.exact (method ++ " " ++ path) with
  | some r => simp [Router.Find, routeSelection, hx]
  | none =>
    cases hp : rt.exact path with
    | some r => simp [Router.Find, routeSelection, hx, hp]
    | none =>
      cases hbp : bestPrefix rt.prefixRoutes path with
      | some r => simp [Router.Find, routeSelection, hx, hp, hbp]
      | none =>
        cases hnf : rt.notFound with
        | some h => simp [Router.Find, routeSelection, hx, hp, hbp, hnf]
        | none => simp [Router.Find, routeSelection, hx, hp, hbp, hnf]

/-- When no registered route matches the path — the exact table holds
neither the composite key nor the path, and no registered prefix entry is
a literal prefix of the path — and no not-found handler is set, Find
yields absent. -/
theorem Find_eq_none_of_no_match (rt : Router) (path method : String)
    (g : List MiddlewareFunc)
    (h1 : rt.exact (method ++ " " ++ path) = none)
    (h2 : rt.exact path = none)
    (h3 : ∀ pr ∈ rt.prefixRoutes, hasPrefix path pr.pfx = false)
    (h4 : rt.notFound = none) :
    rt.Find path method g = none := by
  have hbp : bestPrefix rt.prefixRoutes path = none :=
    (bestPrefix_eq_none_iff _ _).mpr
      (fun pr hmem hm => absurd hm (by simp [h3 pr hmem]))
  unfold Router.Find
  rw [h1, h2, hbp, h4]

/-- C5. For a request whose path matches no registered route on a
router with no not-found handler, Router.Find yields absent and the
dispatcher writes the fixed default not-found response — status
"not_found" with body "not found" — directly on the response writer,
reporting no handler error, without invoking any registered handler. -/
theorem default_not_found_response (s : Server) (w : ResponseWriter)
    (r : Request) (pool : List Context)
    (h1 : s.router.exact (r.method ++ " " ++ r.path) = none)
    (h2 : s.router.exact r.path = none)
    (h3 : ∀ pr ∈ s.router.prefixRoutes, hasPrefix r.path pr.pfx = false)
    (h4 : s.router.notFound = none) :
    s.router.Find r.path r.method s.mw = none ∧
    (serveRequest s w r pool).writer =
      some (w.Respond StatusNotFound "not found") ∧
    (serveRequest s w r pool).handlerErr = none := by
  have hfind := Find_eq_none_of_no_match s.router r.path r.method s.mw h1 h2 h3 h4
  refine ⟨hfind, ?_, ?_⟩ <;>
    cases pool <;>
      simp [serveRequest, acquireContext, poolGet, hfind, Context.NotFound,
        Context.Respond, ResponseWriter.Respond]

/-- Witness for the default-not-found theorem at a concrete empty server
and request. -/
theorem default_not_found_response_witness :
    (Server.mk NewRouter [] 0).router.Find "/missing" "read" [] = none ∧
    (serveRequest (Server.mk NewRouter [] 0) ⟨none⟩ ⟨"/missing", "read", ""⟩
        []).writer =
      some ((ResponseWriter.mk none).Respond StatusNotFound "not found") :=
  ⟨(default_not_found_response (Server.mk NewRouter [] 0) ⟨none⟩
      ⟨"/missing", "read", ""⟩ [] rfl rfl (by simp [NewRouter]) rfl).1,
   (default_not_found_response (Server.mk NewRouter [] 0) ⟨none⟩
      ⟨"/missing", "read", ""⟩ [] rfl rfl (by simp [NewRouter]) rfl).2.1⟩

/-- C7. Every registration method on a Group forwards to the Router
with the path prefixed by the group's accumulated path and the decorator
list equal to the group's decorators followed by the call-site decorators;
and a sub-group's accumulated path is the parent's followed by the new
path segment, its decorator sequence the parent's followed by the new
decorators (a fresh list value, not a view).  Nesting therefore composes
by concatenation at arbitrary depth. -/
theorem group_forwards_with_accumulated_state (g : Group) (rt : Router)
    (method path pre : String) (h : HandlerFunc) (mw : List MiddlewareFunc) :
    (g.Handle rt path h mw = rt.Handle (g.pfx ++ path) h (g.middleware ++ mw)) ∧
    (g.Method rt method path h mw =
        rt.Method method (g.pfx ++ path) h (g.middleware ++ mw)) ∧
    (g.Read rt path h mw =
        rt.Method MethodRead (g.pfx ++ path) h (g.middleware ++ mw)) ∧
    (g.Write rt path h mw =
        rt.Method MethodWrite (g.pfx ++ path) h (g.middleware ++ mw)) ∧
    (g.Update rt path h mw =
        rt.Method MethodUpdate (g.pfx ++ path) h (g.middleware ++ mw)) ∧
    (g.Delete rt path h mw =
        rt.Method MethodDelete (g.pfx ++ path) h (g.middleware ++ mw)) ∧
    (g.HandlePrefix rt pre h mw =
        rt.HandlePrefix (g.pfx ++ pre) h (g.middleware ++ mw)) ∧
    (g.Group pre mw = ⟨g.pfx ++ pre, g.middleware ++ mw⟩) ∧
    ((g.Group pre mw).Group path mw =
        ⟨g.pfx ++ pre ++ path, g.middleware ++ mw ++ mw⟩) := by
  refine ⟨rfl, rfl, rfl, rfl, rfl, rfl, rfl, rfl, ?_⟩
  simp [Group.Group, combineMW, List.append_assoc]

end Velocity

namespace SliceM

/-! Lemmas about the slice-heap model. -/

theorem getD_append_left {α : Type} (l l2 : List α) (i : Nat) (d : α)
    (h : i < l.length) : (l ++ l2).getD i d = l.getD i d := by
  rw [List.getD_eq_getElem?_getD, List.getD_eq_getElem?_getD,
    List.getElem?_append_left h]

theorem getD_concat_self {α : Type} (l : List α) (x : α) (d : α) :
    (l ++ [x]).getD l.length d = x := by
  rw [List.getD_eq_getElem?_getD, List.getElem?_concat_length]
  rfl

theorem getD_set_self {α : Type} (l : List α) (i : Nat) (x : α) (d : α)
    (h : i < l.length) : (l.set i x).getD i d = x := by
  rw [List.getD_eq_getElem?_getD, List.getElem?_set_self h]
  rfl

theorem getD_set_ne {α : Type} (l : List α) (i j : Nat) (x : α) (d : α)
    (h : i ≠ j) : (l.set i x).getD j d = l.getD j d := by
  rw [List.getD_eq_getElem?_getD, List.getD_eq_getElem?_getD,
    List.getElem?_set_ne h]

/-- A well-formed slice denotes exactly `len` elements. -/
theorem read_length {α : Type} (h : Heap α) (s : Slice) (hwf : wf h s) :
    (read h s).length = s.len := by
  have h2 := hwf.2
  unfold read
  rw [List.length_take, List.length_drop]
  omega

/-- Reading through a slice ignores arrays appended beyond it. -/
theorem read_append_arrays {α : Type} (h : Heap α) (newArr : List α)
    (s : Slice) (hs : s.arr < h.arrays.length) :
    read ⟨h.arrays ++ [newArr]⟩ s = read h s := by
  unfold read
  rw [show (Heap.mk (h.arrays ++ [newArr])).arrays = h.arrays ++ [newArr] from rfl,
    getD_append_left _ _ _ _ hs]

/-- Reading through a slice ignores writes to a different array. -/
theorem read_set_other {α : Type} (h : Heap α) (j : Nat) (arr2 : List α)
    (s : Slice) (hne : j ≠ s.arr) :
    read ⟨h.arrays.set j arr2⟩ s = read h s := by
  unfold read
  rw [show (Heap.mk (h.arrays.set j arr2)).arrays = h.arrays.set j arr2 from rfl,
    getD_set_ne _ _ _ _ _ hne]

/-- copySlice when the source fits in the destination: the destination's
array gets the source's elements at the destination's offset. -/
theorem copySlice_eq {α : Type} (h : Heap α) (dst src : Slice)
    (hlen : src.len ≤ dst.len) (hsrc : (read h src).length = src.len) :
    (copySlice h dst src).arrays = h.arrays.set dst.arr
      ((h.arrays.getD dst.arr []).take dst.off ++ read h src ++
        (h.arrays.getD dst.arr []).drop (dst.off + src.len)) := by
  have htake : (read h src).take src.len = read h src := by
    rw [← hsrc]
    exact List.take_length _
  simp only [copySlice]
  rw [Nat.min_eq_right hlen, htake]

end SliceM

namespace SliceM

/-- Reading depends on the heap only through its arrays. -/
theorem read_eq_of_arrays {α : Type} (h1 h2 : Heap α) (s : Slice)
    (he : h1.arrays = h2.arrays) : read h1 s = read h2 s := by
  unfold read
  rw [he]

/-- The final arrays after combineMW: the original arrays plus one fresh
array that, after the two copies (which collapse into one write of the
fresh slot), holds exactly the elements of `a` followed by those of `b`. -/
theorem combineMW_arrays {α : Type} (h : Heap α) (d : α) (a b : Slice)
    (hwa : wf h a) (hwb : wf h b) :
    (combineMW h d a b).1.arrays =
      (h.arrays ++ [List.replicate (a.len + b.len) d]).set h.arrays.length
        (read h a ++ read h b) := by
  obtain ⟨ha1, ha2⟩ := hwa
  obtain ⟨hb1, hb2⟩ := hwb
  have hAlen : (read h a).length = a.len := read_length h a ⟨ha1, ha2⟩
  have hBlen : (read h b).length = b.len := read_length h b ⟨hb1, hb2⟩
  have h1a : read (⟨h.arrays ++ [List.replicate (a.len + b.len) d]⟩ : Heap α) a =
      read h a := read_append_arrays h _ a ha1
  have h1b : read (⟨h.arrays ++ [List.replicate (a.len + b.len) d]⟩ : Heap α) b =
      read h b := read_append_arrays h _ b hb1
  have hinner : (copySlice (⟨h.arrays ++ [List.replicate (a.len + b.len) d]⟩ : Heap α)
      ⟨h.arrays.length, 0, a.len + b.len, a.len + b.len⟩ a).arrays =
      (h.arrays ++ [List.replicate (a.len + b.len) d]).set h.arrays.length
        (read h a ++ List.replicate b.len d) := by
    rw [copySlice_eq _ _ a (Nat.le_add_right a.len b.len) (by rw [h1a]; exact hAlen)]
    rw [h1a]
    simp only [getD_concat_self, List.take_zero, List.nil_append, Nat.zero_add,
      List.drop_replicate, Nat.add_sub_cancel_left]
  have houterb : read (copySlice (⟨h.arrays ++ [List.replicate (a.len + b.len) d]⟩ : Heap α)
      ⟨h.arrays.length, 0, a.len + b.len, a.len + b.len⟩ a) b = read h b := by
    rw [read_eq_of_arrays _
      ⟨(h.arrays ++ [List.replicate (a.len + b.len) d]).set h.arrays.length
        (read h a ++ List.replicate b.len d)⟩ b hinner]
    rw [read_set_other (⟨h.arrays ++ [List.replicate (a.len + b.len) d]⟩ : Heap α)
      h.arrays.length _ b (by omega)]
    exact h1b
  show (copySlice (copySlice (⟨h.arrays ++ [List.replicate (a.len + b.len) d]⟩ : Heap α)
      ⟨h.arrays.length, 0, a.len + b.len, a.len + b.len⟩ a)
      (sliceFrom ⟨h.arrays.length, 0, a.len + b.len, a.len + b.len⟩ a.len) b).arrays = _
  rw [copySlice_eq _ _ b (by simp only [sliceFrom]; omega)
    (by rw [houterb]; exact hBlen)]
  rw [hinner, houterb]
  simp only [sliceFrom, Nat.zero_add]
  rw [getD_set_self _ _ _ _ (by simp)]
  rw [List.take_left' hAlen]
  rw [List.drop_eq_nil_of_le (by simp [hAlen])]
  rw [List.append_nil, List.set_set]

/-- What the combined slice denotes: the concatenation of the inputs. -/
theorem combineMW_read {α : Type} (h : Heap α) (d : α) (a b : Slice)
    (hwa : wf h a) (hwb : wf h b) :
    read (combineMW h d a b).1 (combineMW h d a b).2 = read h a ++ read h b := by
  have hAlen : (read h a).length = a.len := read_length h a hwa
  have hBlen : (read h b).length = b.len := read_length h b hwb
  rw [read_eq_of_arrays _
    ⟨(h.arrays ++ [List.replicate (a.len + b.len) d]).set
      h.arrays.length (read h a ++ read h b)⟩
    (combineMW h d a b).2 (combineMW_arrays h d a b hwa hwb)]
  show ((((h.arrays ++ [List.replicate (a.len + b.len) d]).set h.arrays.length
      (read h a ++ read h b)).getD h.arrays.length []).drop 0).take
      (a.len + b.len) = read h a ++ read h b
  rw [getD_set_self _ _ _ _ (by simp), List.drop_zero]
  have hlen : (read h a ++ read h b).length = a.len + b.len := by
    simp [hAlen, hBlen]
  rw [← hlen, List.take_length]

end SliceM

namespace SliceM

/-- An element write through a slice over a different array leaves a
slice's denotation unchanged. -/
theorem read_writeElem_ne {α : Type} (h : Heap α) (x : Slice) (i : Nat)
    (v : α) (s : Slice) (hne : x.arr ≠ s.arr) :
    read (writeElem h x i v) s = read h s :=
  read_set_other h x.arr _ s hne

/-- An append through a slice over a different array leaves the
denotation of a slice over an existing array unchanged, whether the
append writes in place or relocates. -/
theorem read_appendElem_other {α : Type} (h : Heap α) (x : Slice) (v : α)
    (s : Slice) (hne : x.arr ≠ s.arr) (hs : s.arr < h.arrays.length) :
    read (appendElem h x v).1 s = read h s := by
  unfold appendElem
  by_cases hcap : x.len < x.cap
  · rw [if_pos hcap]
    exact read_writeElem_ne h x x.len v s hne
  · rw [if_neg hcap]
    exact read_append_arrays h _ s hs

/-- The combined heap has exactly one more array than the input heap. -/
theorem combineMW_arrays_length {α : Type} (h : Heap α) (d : α) (a b : Slice)
    (hwa : wf h a) (hwb : wf h b) :
    (combineMW h d a b).1.arrays.length = h.arrays.length + 1 := by
  rw [combineMW_arrays h d a b hwa hwb]
  simp

end SliceM

namespace Velocity

/-- C8. combineMW returns the concatenation `seqA ++ seqB` in freshly
allocated backing storage: in the slice-heap model the combined slice
denotes exactly the value-level `combineMW` (concatenation) of the two
inputs' denotations, lives in an array slot beyond every pre-existing
array, and its denotation is unchanged by any later element write or
append performed through any slice over a pre-existing array — in
particular through `seqA` or `seqB` themselves. -/
theorem combineMW_fresh_and_mutation_independent
    (h : SliceM.Heap MiddlewareFunc) (d : MiddlewareFunc)
    (a b : SliceM.Slice) (hwa : SliceM.wf h a) (hwb : SliceM.wf h b) :
    SliceM.read (SliceM.combineMW h d a b).1 (SliceM.combineMW h d a b).2 =
      combineMW (SliceM.read h a) (SliceM.read h b) ∧
    (SliceM.combineMW h d a b).2.arr = h.arrays.length ∧
    (∀ (x : SliceM.Slice) (i : Nat) (v : MiddlewareFunc),
      x.arr < h.arrays.length →
      SliceM.read (SliceM.writeElem (SliceM.combineMW h d a b).1 x i v)
          (SliceM.combineMW h d a b).2 =
        SliceM.read (SliceM.combineMW h d a b).1
          (SliceM.combineMW h d a b).2) ∧
    (∀ (x : SliceM.Slice) (v : MiddlewareFunc),
      x.arr < h.arrays.length →
      SliceM.read (SliceM.appendElem (SliceM.combineMW h d a b).1 x v).1
          (SliceM.combineMW h d a b).2 =
        SliceM.read (SliceM.combineMW h d a b).1
          (SliceM.combineMW h d a b).2) := by
  have hfresh : (SliceM.combineMW h d a b).2.arr = h.arrays.length := rfl
  refine ⟨SliceM.combineMW_read h d a b hwa hwb, hfresh, ?_, ?_⟩
  · intro x i v hx
    exact SliceM.read_writeElem_ne _ x i v _ (by rw [hfresh]; omega)
  · intro x v hx
    exact SliceM.read_appendElem_other _ x v _ (by rw [hfresh]; omega)
      (by rw [hfresh, SliceM.combineMW_arrays_length h d a b hwa hwb]; omega)

/-- Witness for the combineMW allocation theorem at a concrete heap of
two middleware arrays: the combined slice reads as the concatenation,
and a write through the first input slice leaves it unchanged. -/
theorem combineMW_fresh_and_mutation_independent_witness :
    SliceM.read (SliceM.combineMW mwHeap (traceMW "z") mwA mwB).1
        (SliceM.combineMW mwHeap (traceMW "z") mwA mwB).2 =
      combineMW (SliceM.read mwHeap mwA) (SliceM.read mwHeap mwB) ∧
    SliceM.read (SliceM.writeElem (SliceM.combineMW mwHeap (traceMW "z")
          mwA mwB).1 mwA 0 (traceMW "w"))
        (SliceM.combineMW mwHeap (traceMW "z") mwA mwB).2 =
      SliceM.read (SliceM.combineMW mwHeap (traceMW "z") mwA mwB).1
        (SliceM.combineMW mwHeap (traceMW "z") mwA mwB).2 :=
  ⟨(combineMW_fresh_and_mutation_independent mwHeap (traceMW "z") mwA mwB
      (by constructor <;> decide) (by constructor <;> decide)).1,
   (combineMW_fresh_and_mutation_independent mwHeap (traceMW "z") mwA mwB
      (by constructor <;> decide) (by constructor <;> decide)).2.2.1
     mwA 0 (traceMW "w") (by decide)⟩

end Velocity
